import Mathlib

/-!
Verification development for the systems-programming repository
(`proxylab`: segregated-fit heap allocator, concurrent caching HTTP proxy).

The allocator (the `mm.c` translation unit inside `src/proxylab/test.c`) is
modelled as a word-addressed heap: memory is a function from 32-bit-word
indices (measured from `heapStart`, so `heapStart` itself is index 0) to the
word stored there.  All words are 32 bits, so every store masks with `% 2^32`,
and every read of a raw word masks likewise.  C pointer values into the heap
are represented by their word index; `NULL` results are `Option.none`.
`mem_sbrk` is modelled by a boolean oracle `ok`: when `ok` is true the heap
can always be extended (memory beyond the break already lives in the model's
total memory function), when it is false `mem_sbrk` reports failure.
-/

namespace CSys

/-- Number of exact-size (8-byte quantum) bins, `#define SMALLBINS 8`. -/
def SMALLBINS : Nat := 8

/-- Number of 64-byte-quantum bins, `#define MEDBINS 2`. -/
def MEDBINS : Nat := 2

/-- Number of 3072-byte-quantum bins, `#define BIGBINS 8`. -/
def BIGBINS : Nat := 8

/-- Minimum sbrk extension, `#define CHUNKSIZE 400`. -/
def CHUNKSIZE : Nat := 400

/-- Minimum payload, `#define MINALLOC 8`. -/
def MINALLOC : Nat := 8

/-- Header size in bytes, `#define HSIZE 8`. -/
def HSIZE : Nat := 8

/-- Alignment in bytes, `#define ALIGNMENT 8`. -/
def ALIGNMENT : Nat := 8

/-- Word offset of the last 4-byte chunk of the prologue,
`#define LISTZONE (SMALLBINS+MEDBINS+BIGBINS)`. -/
def LISTZONE : Nat := SMALLBINS + MEDBINS + BIGBINS

/-- Byte offset of the first memory block, `#define FIRST (LISTZONE*4+4)`. -/
def FIRST : Nat := LISTZONE * 4 + 4

/-- The allocator's heap image: `mem i` is the 32-bit word at word index `i`
(word index 0 is `heapStart`), and `wild` is the word index held by the
global `wildPtr`. -/
structure Heap where
  mem : Nat → Nat
  wild : Nat

/-- Read the 32-bit word at word index `i` (a `uint32_t` load). -/
def wread (h : Heap) (i : Nat) : Nat := h.mem i % 2^32

/-- Store a 32-bit word at word index `i` (a `uint32_t` store). -/
def wset (h : Heap) (i v : Nat) : Heap :=
  { h with mem := fun j => if j = i then v % 2^32 else h.mem j }

/-- `block_size`: `block[0] & 0xFFFFFFF8`, i.e. bits 3..31 of the 32-bit
header word. -/
def block_size (h : Heap) (p : Nat) : Nat := wread h p / 8 * 8

/-- `block_free`: `block[0] & 1`. -/
def block_free (h : Heap) (p : Nat) : Nat := wread h p % 2

/-- `block_mark`: `block[0] = (block[0] & 0xFFFFFFFE) + fr`. -/
def block_mark (h : Heap) (p fr : Nat) : Heap :=
  wset h p (wread h p / 2 * 2 + fr)

/-- `block_pack`: `block[0] = size + fr`. -/
def block_pack (h : Heap) (p size fr : Nat) : Heap :=
  wset h p (size + fr)

/-- `block_left`: `heapStart + block[1]` (with `heapStart` at index 0). -/
def block_left (h : Heap) (p : Nat) : Nat := wread h (p + 1)

/-- `block_right`: `heapStart + block[2]`. -/
def block_right (h : Heap) (p : Nat) : Nat := wread h (p + 2)

/-- `edit_left`: `block[1] = left - heapStart`. -/
def edit_left (h : Heap) (p left : Nat) : Heap := wset h (p + 1) left

/-- `edit_right`: `block[2] = right - heapStart`. -/
def edit_right (h : Heap) (p right : Nat) : Heap := wset h (p + 2) right

/-- `get_bin` from `test.c`: bin index for a block size.  The first branch
computes `size/8 - 2` in `uint32_t` arithmetic, written here with the
explicit two's-complement wrap `(size/8 + (2^32 - 2)) % 2^32`. -/
def get_bin (size : Nat) : Nat :=
  if size < 16 + SMALLBINS * 8 then
    (size / 8 + (2^32 - 2)) % 2^32
  else if size < 16 + SMALLBINS * 8 + MEDBINS * 64 then
    (size - (16 + SMALLBINS * 8)) / 64 + SMALLBINS
  else if size < 16 + SMALLBINS * 8 + MEDBINS * 64 + BIGBINS * 3072 then
    (size - (16 + SMALLBINS * 8 + MEDBINS * 64)) / 3072 + SMALLBINS + MEDBINS
  else
    SMALLBINS + MEDBINS + BIGBINS

/-- The bin-index formula exactly as claim C5 states it: `s/8 - 2` for
`s < 80`, `8 + (s-80)/64` for `80 ≤ s < 208`, `10 + (s-208)/3072` for
`208 ≤ s < 24784`, and the overflow index `18` otherwise. -/
def bin_index_claim (s : Nat) : Nat :=
  if s < 80 then s / 8 - 2
  else if s < 208 then 8 + (s - 80) / 64
  else if s < 24784 then 10 + (s - 208) / 3072
  else 18

/-- Claim C5: for every block size `s` that is a multiple of 8 with `s ≥ 16`,
`get_bin s` equals the claim's piecewise formula (the spec's table
instantiated with `S = 8`, `M = 2`, `B = 8`, overflow index 18). -/
theorem get_bin_eq_claim (s : Nat) (h8 : s % 8 = 0) (h16 : 16 ≤ s) :
    get_bin s = bin_index_claim s := by
  simp only [get_bin, bin_index_claim, SMALLBINS, MEDBINS, BIGBINS]
  split_ifs <;> omega

/-!
Free-list manipulation and the allocation paths, translated from `test.c`.
-/

/-- `list_insert`: push the free block `p` onto the front of the circular
list of its bin.  `listHead` is `heapStart + bidx`, and the comparison
`listFirst == listHead` of C pointers becomes equality of word indices. -/
def list_insert (h : Heap) (p : Nat) : Heap :=
  let bidx := get_bin (block_size h p)
  let listFirst := wread h bidx
  if listFirst = bidx then
    -- empty list: point listHead and freePtr at each other
    edit_right (edit_left (wset h bidx p) p bidx) p bidx
  else
    edit_left (edit_right (edit_left (wset h bidx p) p bidx) p listFirst)
      listFirst p

/-- `list_delete`: unlink the free block `p` from its list.  Offsets at or
below `LISTZONE` denote prologue sentinels, whose forward link lives in
word 0 of the sentinel rather than word 2 of a block. -/
def list_delete (h : Heap) (p : Nat) : Heap :=
  let left := wread h (p + 1)
  let right := wread h (p + 2)
  let h1 := if left ≤ LISTZONE then wset h left right
            else wset h (left + 2) right
  if right > LISTZONE then wset h1 (right + 1) left else h1

/-- `place`: unlink the chosen free block, split it if the remainder can
hold a minimal block (`bsize >= size+MINALLOC+HSIZE`, a `uint32_t`
comparison, hence the `% 2^32` on the sum), and return the payload pointer
`ptr+1` together with the updated heap. -/
def place (h : Heap) (p size : Nat) : Nat × Heap :=
  let h0 := list_delete h p
  let bsize := block_size h0 p
  if bsize ≥ (size + MINALLOC + HSIZE) % 2^32 then
    let h1 := block_pack h0 p size 0
    let fp := p + size / 4
    let h2 := block_pack h1 (fp - 1) size 0
    let bsize' := bsize - size
    let h3 := block_pack h2 fp bsize' 1
    let h4 := block_pack h3 (fp + (bsize' / 4 - 1)) bsize' 1
    (p + 1, list_insert h4 fp)
  else
    (p + 1, block_mark h0 p 0)

/-- `list_alloc_exact`: take the first element of bin `b`'s list if the
list is non-empty (`curPtr != start`), else `NULL`. -/
def list_alloc_exact (h : Heap) (b size : Nat) : Option (Nat × Heap) :=
  let cur := wread h b
  if cur ≠ b then some (place h cur size) else none

/-- The bounded best-fit scan of `list_alloc_best`: walk the list from
`cur`, for at most `fuel` further iterations (the C loop guard is
`curPtr != start && ctr <= 5`, so `fuel` starts at 6), keeping the smallest
examined block of size at least `size` (`best` starts at `0xFFFFFFFF`). -/
def lab_loop (h : Heap) (start size : Nat) :
    Nat → Nat → Nat → Option Nat → Option Nat
  | 0, _, _, bestPtr => bestPtr
  | fuel + 1, cur, best, bestPtr =>
    if cur = start then bestPtr
    else if size ≤ block_size h cur ∧ block_size h cur ≤ best then
      lab_loop h start size fuel (wread h (cur + 2)) (block_size h cur)
        (some cur)
    else
      lab_loop h start size fuel (wread h (cur + 2)) best bestPtr

/-- The block `list_alloc_best` selects (the value of `bestPtr` when the
scan loop exits), or `none`. -/
def lab_find (h : Heap) (start size : Nat) : Option Nat :=
  lab_loop h start size 6 (wread h start) (2^32 - 1) none

/-- `list_alloc_best`: bounded best-fit over the first six list elements,
then `place` on the chosen block, or `NULL` if none of them fits. -/
def list_alloc_best (h : Heap) (start size : Nat) : Option (Nat × Heap) :=
  match lab_find h start size with
  | some bp => some (place h bp size)
  | none => none

/-- `wild_expand`: extend the heap by at least `CHUNKSIZE` bytes via
`mem_sbrk`; returns the extension size, or 0 when `mem_sbrk` fails. -/
def wild_expand (ok : Bool) (size : Nat) : Nat :=
  let size' := if size < CHUNKSIZE then CHUNKSIZE else size
  if ok then size' else 0

/-- The committed part of `wild_alloc` once enough wilderness space is
known to exist: carve `size` bytes off the low end, advance `wildPtr`, and
rewrite the allocated block's header/footer and the shrunken wilderness
header/footer. -/
def wild_alloc_go (h : Heap) (size wpsize : Nat) : Nat × Heap :=
  let allocPtr := h.wild + 1
  let wild' := h.wild + size / 4
  let wp' := wpsize - size
  let h1 := block_pack h (allocPtr - 1) size 0
  let h2 := block_pack h1 (wild' - 1) size 0
  let h3 := block_pack h2 wild' wp' 1
  let h4 := block_pack h3 (wild' + (wp' / 4 - 1)) wp' 1
  (allocPtr, { h4 with wild := wild' })

/-- `wild_alloc`: allocate `size` bytes from the wilderness, first calling
`wild_expand` when `wpsize < size+MINALLOC+HSIZE` (`uint32_t` comparison
and subtraction, hence the masks).  The second component records whether a
`mem_sbrk` call was made and failed, which is exactly the `NULL` path. -/
def wild_alloc (h : Heap) (ok : Bool) (size : Nat) :
    Option (Nat × Heap) × Bool :=
  let wpsize := block_size h h.wild
  if wpsize < (size + MINALLOC + HSIZE) % 2^32 then
    let inc := wild_expand ok ((size + MINALLOC + HSIZE - wpsize) % 2^32)
    if inc = 0 then (none, true)
    else (some (wild_alloc_go h size (wpsize + inc)), false)
  else (some (wild_alloc_go h size wpsize), false)

/-- The bin-probing loop of `malloc`: `for (b = get_bin(newsize);
b <= LISTZONE; b++)`, trying `list_alloc_exact` on exact bins and
`list_alloc_best` otherwise whenever the bin's list is non-empty.  `fuel`
is only a structural-termination counter; called with `fuel = LISTZONE+1`
it never runs out before `b` passes `LISTZONE`. -/
def tryBins (h : Heap) (size : Nat) : Nat → Nat → Option (Nat × Heap)
  | 0, _ => none
  | fuel + 1, b =>
    if b ≤ LISTZONE then
      if wread h b ≠ b then
        match (if b < SMALLBINS then list_alloc_exact h b size
               else list_alloc_best h b size) with
        | some r => some r
        | none => tryBins h size fuel (b + 1)
      else tryBins h size fuel (b + 1)
    else none

/-- `malloc` from `test.c`.  The result is the returned payload pointer
(`none` for `NULL`), the heap after the call, and a flag that is true
exactly when the call's `mem_sbrk` request failed.  `newsize` is computed
in `size_t` and truncated into a `uint32_t`, hence the `% 2^32`. -/
def malloc (h : Heap) (ok : Bool) (n : Nat) : Option Nat × Heap × Bool :=
  if n = 0 then (none, h, false)
  else
    let newsize := if n ≤ MINALLOC then MINALLOC + HSIZE
                   else (n + HSIZE + ALIGNMENT - 1) / ALIGNMENT * ALIGNMENT
                     % 2^32
    match tryBins h newsize (LISTZONE + 1) (get_bin newsize) with
    | some (p, h') => (some p, h', false)
    | none =>
      match wild_alloc h ok newsize with
      | (some (p, h'), f) => (some p, h', f)
      | (none, f) => (none, h, f)

/-- `mm_init`: extend the heap once, write the bin sentinels `0..LISTZONE`,
and lay out the initial wilderness block.  `m0` is the (arbitrary) content
of uninitialised memory. -/
def mm_init (m0 : Nat → Nat) (ok : Bool) : Option Heap :=
  let size := wild_expand ok (4 + FIRST + HSIZE + MINALLOC)
  if size = 0 then none
  else
    let h1 := (List.range (LISTZONE + 1)).foldl (fun h b => wset h b b)
      ⟨m0, 0⟩
    let freeSize := size - (4 + FIRST)
    let wp := FIRST / 4
    let h2 := block_pack { h1 with wild := wp } wp freeSize 1
    some (block_pack h2 (wp + (freeSize / 4 - 1)) freeSize 1)

/-- The heap produced by a successful `mm_init` over zeroed memory. -/
def initHeap : Heap := (mm_init (fun _ => 0) true).getD ⟨fun _ => 0, 0⟩

/-- Helper for C1: `wild_alloc` returns `NULL` exactly when its `mem_sbrk`
call failed. -/
theorem wild_alloc_none_iff (h : Heap) (ok : Bool) (size : Nat) :
    (wild_alloc h ok size).1 = none ↔ (wild_alloc h ok size).2 = true := by
  simp only [wild_alloc]
  split_ifs <;> simp

/-- Claim C1: `allocate (malloc)` returns `NULL` for a zero request, and
for every positive request it returns `NULL` if and only if the
`mem_sbrk` (`extend_heap`) call it performs fails — no free-list or
wilderness condition alone produces `NULL`.  Quantified over arbitrary
heap contents and the sbrk oracle. -/
theorem malloc_none_iff (h : Heap) (ok : Bool) (n : Nat) :
    (malloc h ok 0).1 = none ∧
      (0 < n → ((malloc h ok n).1 = none ↔ (malloc h ok n).2.2 = true)) := by
  constructor
  · simp [malloc]
  · intro hn
    have hn' : n ≠ 0 := Nat.pos_iff_ne_zero.mp hn
    unfold malloc
    simp only [hn', if_false]
    cases htb : tryBins h (if n ≤ MINALLOC then MINALLOC + HSIZE
        else (n + HSIZE + ALIGNMENT - 1) / ALIGNMENT * ALIGNMENT % 2^32)
        (LISTZONE + 1)
        (get_bin (if n ≤ MINALLOC then MINALLOC + HSIZE
          else (n + HSIZE + ALIGNMENT - 1) / ALIGNMENT * ALIGNMENT % 2^32))
        with
    | some r =>
      simp [htb]
    | none =>
      simp only [htb]
      have hiff := wild_alloc_none_iff h ok
        (if n ≤ MINALLOC then MINALLOC + HSIZE
          else (n + HSIZE + ALIGNMENT - 1) / ALIGNMENT * ALIGNMENT % 2^32)
      cases hwa : wild_alloc h ok
          (if n ≤ MINALLOC then MINALLOC + HSIZE
            else (n + HSIZE + ALIGNMENT - 1) / ALIGNMENT * ALIGNMENT % 2^32)
          with
      | mk r f =>
        cases r with
        | some pr =>
          rw [hwa] at hiff
          simp at hiff
          simp [hiff]
        | none =>
          rw [hwa] at hiff
          simp at hiff
          simp [hiff]

/-- Witness for C1: on the freshly initialised heap with a working sbrk,
a 24-byte request does not return `NULL`; with a failing sbrk it does. -/
theorem malloc_none_iff_witness :
    (0 < 24 ∧
      (((malloc initHeap true 24).1 = none) ↔
        ((malloc initHeap true 24).2.2 = true))) ∧
      (malloc initHeap true 24).1 = some 20 ∧
      (malloc initHeap false 3000).1 = none ∧
      (malloc initHeap false 3000).2.2 = true :=
  ⟨⟨by decide, (malloc_none_iff initHeap true 24).2 (by decide)⟩,
    by decide, by decide, by decide⟩

/-!
Claim C6: the bounded best-fit policy of `list_alloc_best`.
-/

/-- The list elements visited from `cur`, following `block_right` links,
stopping at the sentinel `start` or after `fuel` elements. -/
def binElems (h : Heap) (start : Nat) : Nat → Nat → List Nat
  | 0, _ => []
  | fuel + 1, cur =>
    if cur = start then []
    else cur :: binElems h start fuel (wread h (cur + 2))

/-- The (at most six) elements `list_alloc_best` examines in bin `start`. -/
def firstSix (h : Heap) (start : Nat) : List Nat :=
  binElems h start 6 (wread h start)

/-- One iteration of the best-fit scan as a fold step over the visited
elements: keep the examined block when it fits and is no larger than the
best so far. -/
def bestStep (h : Heap) (size : Nat) (acc : Nat × Option Nat) (e : Nat) :
    Nat × Option Nat :=
  if size ≤ block_size h e ∧ block_size h e ≤ acc.1 then
    (block_size h e, some e)
  else acc

/-- Any block size is at most `0xFFFFFFF8`, in particular strictly below
the scan's initial `best` value `0xFFFFFFFF`. -/
theorem block_size_le (h : Heap) (p : Nat) : block_size h p ≤ 2^32 - 8 := by
  have hw : h.mem p % 2^32 < 2^32 := Nat.mod_lt _ (by norm_num)
  simp only [block_size, wread]
  omega

/-- Invariant of the best-fit scan: after processing the elements `done`,
the accumulator is either still the initial `(0xFFFFFFFF, none)` with no
fitting element seen, or holds a fitting element of minimal block size
among the fitting elements seen. -/
def bestInv (h : Heap) (size : Nat) (done : List Nat) :
    Nat × Option Nat → Prop
  | (best, none) => best = 2^32 - 1 ∧ ∀ e ∈ done, block_size h e < size
  | (best, some p) => best = block_size h p ∧ size ≤ block_size h p ∧
      p ∈ done ∧
      ∀ e ∈ done, size ≤ block_size h e → block_size h p ≤ block_size h e

theorem bestStep_preserves (h : Heap) (size : Nat) (done : List Nat)
    (acc : Nat × Option Nat) (a : Nat) (hI : bestInv h size done acc) :
    bestInv h size (done ++ [a]) (bestStep h size acc a) := by
  obtain ⟨best, bp⟩ := acc
  cases bp with
  | none =>
    obtain ⟨hb, hall⟩ := hI
    by_cases hc : size ≤ block_size h a ∧ block_size h a ≤ best
    · simp only [bestStep, hc, if_true, bestInv]
      refine ⟨rfl, hc.1, List.mem_append_right _ (by simp), ?_⟩
      intro e he hfit
      rcases List.mem_append.mp he with he' | he'
      · exact absurd hfit (not_le.mpr (hall e he'))
      · simp at he'
        subst he'
        exact le_refl _
    · simp only [bestStep, hc, if_false, bestInv]
      refine ⟨hb, ?_⟩
      intro e he
      rcases List.mem_append.mp he with he' | he'
      · exact hall e he'
      · simp at he'
        subst he'
        have hle := block_size_le h e
        rw [hb] at hc
        push_neg at hc
        by_cases hs : size ≤ block_size h e
        · exact absurd (hc hs) (not_lt.mpr (by omega))
        · omega
  | some p =>
    obtain ⟨hb, hfitp, hmem, hmin⟩ := hI
    by_cases hc : size ≤ block_size h a ∧ block_size h a ≤ best
    · simp only [bestStep, hc, if_true, bestInv]
      refine ⟨rfl, hc.1, List.mem_append_right _ (by simp), ?_⟩
      intro e he hfit
      rcases List.mem_append.mp he with he' | he'
      · have := hmin e he' hfit
        rw [hb] at hc
        omega
      · simp at he'
        subst he'
        exact le_refl _
    · simp only [bestStep, hc, if_false, bestInv]
      refine ⟨hb, hfitp, List.mem_append_left _ hmem, ?_⟩
      intro e he hfit
      rcases List.mem_append.mp he with he' | he'
      · exact hmin e he' hfit
      · simp at he'
        subst he'
        rw [hb] at hc
        push_neg at hc
        have := hc hfit
        omega

theorem foldl_bestStep_inv (h : Heap) (size : Nat) :
    ∀ (es done : List Nat) (acc : Nat × Option Nat),
      bestInv h size done acc →
      bestInv h size (done ++ es) (es.foldl (bestStep h size) acc) := by
  intro es
  induction es with
  | nil => intro done acc hI; simpa using hI
  | cons a rest ih =>
    intro done acc hI
    have h1 := bestStep_preserves h size done acc a hI
    have h2 := ih (done ++ [a]) (bestStep h size acc a) h1
    simpa [List.append_assoc] using h2

/-- The scan loop computes the fold of `bestStep` over the visited
elements. -/
theorem lab_loop_eq_foldl (h : Heap) (start size : Nat) :
    ∀ (fuel cur best : Nat) (bp : Option Nat),
      lab_loop h start size fuel cur best bp =
        ((binElems h start fuel cur).foldl (bestStep h size) (best, bp)).2 := by
  intro fuel
  induction fuel with
  | zero => intro cur best bp; simp [lab_loop, binElems]
  | succ fuel ih =>
    intro cur best bp
    by_cases h1 : cur = start
    · simp [lab_loop, binElems, h1]
    · by_cases h2 : size ≤ block_size h cur ∧ block_size h cur ≤ best
      · simp [lab_loop, binElems, h1, h2, bestStep, ih]
      · simp [lab_loop, binElems, h1, h2, bestStep, ih]

theorem binElems_length_le (h : Heap) (start : Nat) :
    ∀ (fuel cur : Nat), (binElems h start fuel cur).length ≤ fuel := by
  intro fuel
  induction fuel with
  | zero => intro cur; simp [binElems]
  | succ fuel ih =>
    intro cur
    by_cases h1 : cur = start
    · simp [binElems, h1]
    · simp only [binElems, h1, if_false, List.length_cons]
      exact Nat.succ_le_succ (ih _)

/-- Claim C6: when `malloc` searches a non-exact bin (index at least
`SMALLBINS = 8`), `list_alloc_best` examines at most the first six list
elements; it fails exactly when none of them is large enough; when it
succeeds it places into an examined fitting block of minimal size among
the examined fitting blocks; and on failure the bin loop of `malloc`
simply moves on to the next bin. -/
theorem bounded_best_fit (h : Heap) (b size fuel : Nat) :
    (firstSix h b).length ≤ 6 ∧
      (list_alloc_best h b size = none ↔
        ∀ p ∈ firstSix h b, block_size h p < size) ∧
      (∀ p, lab_find h b size = some p →
        p ∈ firstSix h b ∧ size ≤ block_size h p ∧
          (∀ r ∈ firstSix h b,
            size ≤ block_size h r → block_size h p ≤ block_size h r) ∧
          list_alloc_best h b size = some (place h p size)) ∧
      (SMALLBINS ≤ b → b ≤ LISTZONE → list_alloc_best h b size = none →
        tryBins h size (fuel + 1) b = tryBins h size fuel (b + 1)) := by
  have hfold : lab_find h b size =
      ((firstSix h b).foldl (bestStep h size) (2^32 - 1, none)).2 := by
    simp [lab_find, firstSix, lab_loop_eq_foldl]
  have hInv0 : bestInv h size [] ((2^32 - 1 : Nat), (none : Option Nat)) :=
    ⟨rfl, by simp⟩
  have hInv := foldl_bestStep_inv h size (firstSix h b) [] _ hInv0
  simp only [List.nil_append] at hInv
  refine ⟨binElems_length_le h b 6 _, ?_, ?_, ?_⟩
  · constructor
    · intro hnone
      rw [show list_alloc_best h b size =
          (match lab_find h b size with
            | some bp => some (place h bp size)
            | none => none) from rfl] at hnone
      cases hlf : lab_find h b size with
      | some p => rw [hlf] at hnone; simp at hnone
      | none =>
        rw [hfold] at hlf
        intro p hp
        cases hacc : ((firstSix h b).foldl (bestStep h size)
            (2^32 - 1, none)) with
        | mk best bp =>
          rw [hacc] at hlf hInv
          simp at hlf
          rw [hlf] at hInv
          exact hInv.2 p hp
    · intro hall
      cases hlf : lab_find h b size with
      | none => simp [list_alloc_best, hlf]
      | some p =>
        rw [hfold] at hlf
        cases hacc : ((firstSix h b).foldl (bestStep h size)
            (2^32 - 1, none)) with
        | mk best bp =>
          rw [hacc] at hlf hInv
          simp at hlf
          rw [hlf] at hInv
          exact absurd hInv.2.1 (not_le.mpr (hall p hInv.2.2.1))
  · intro p hlf
    have hlf' := hlf
    rw [hfold] at hlf'
    cases hacc : ((firstSix h b).foldl (bestStep h size)
        (2^32 - 1, none)) with
    | mk best bp =>
      rw [hacc] at hlf' hInv
      simp at hlf'
      rw [hlf'] at hInv
      exact ⟨hInv.2.2.1, hInv.2.1, hInv.2.2.2, by simp [list_alloc_best, hlf]⟩
  · intro hge hle hnone
    have hsb : ¬ b < SMALLBINS := not_lt.mpr hge
    by_cases hne : wread h b ≠ b
    · simp [tryBins, hle, hne, hsb, hnone]
    · simp [tryBins, hle, hne]

/-- Demonstration heap for the C6 witness: bin 10's sentinel points at a
single free block at word 30 of size 496 whose links close the circle. -/
def demoHeap : Heap :=
  ⟨fun i => if i = 10 then 30
    else if i = 30 then 497
    else if i = 31 then 10
    else if i = 32 then 10
    else i, 0⟩

/-- Witness for C6 at the concrete heap `demoHeap`: the scan sees block 30,
a 408-byte request is placed into it, and a 500-byte request fails and
sends the bin loop on to bin 11. -/
theorem bounded_best_fit_witness :
    (firstSix demoHeap 10).length ≤ 6 ∧
      (30 ∈ firstSix demoHeap 10 ∧ 408 ≤ block_size demoHeap 30 ∧
        (∀ r ∈ firstSix demoHeap 10,
          408 ≤ block_size demoHeap r →
            block_size demoHeap 30 ≤ block_size demoHeap r) ∧
        list_alloc_best demoHeap 10 408 =
          some (place demoHeap 30 408)) ∧
      tryBins demoHeap 500 2 10 = tryBins demoHeap 500 1 11 :=
  ⟨(bounded_best_fit demoHeap 10 408 1).1,
    (bounded_best_fit demoHeap 10 408 1).2.2.1 30 (by decide),
    (bounded_best_fit demoHeap 10 500 1).2.2.2 (by decide) (by decide) rfl⟩

/-- Witness for C5: the theorem applied at the concrete size 24 (and at a
size in each of the other three ranges). -/
theorem get_bin_eq_claim_witness :
    (24 % 8 = 0 ∧ 16 ≤ 24 ∧ get_bin 24 = bin_index_claim 24) ∧
      get_bin 128 = bin_index_claim 128 ∧
      get_bin 4000 = bin_index_claim 4000 ∧
      get_bin 30000 = bin_index_claim 30000 :=
  ⟨⟨by decide, by decide, get_bin_eq_claim 24 (by decide) (by decide)⟩,
    get_bin_eq_claim 128 (by decide) (by decide),
    get_bin_eq_claim 4000 (by decide) (by decide),
    get_bin_eq_claim 30000 (by decide) (by decide)⟩

/-!
Claim C8: `calloc` from `test.c`.  `memset` works on bytes, so the heap
gets a little-endian byte view of its 32-bit words.
-/

/-- The byte at byte address `a` (little-endian within each 32-bit
word; word `i` covers byte addresses `4*i .. 4*i+3`). -/
def byteAt (h : Heap) (a : Nat) : Nat :=
  wread h (a / 4) / 2^(8 * (a % 4)) % 256

/-- Store one byte at byte address `a`, leaving the rest of the word
unchanged. -/
def setByte (h : Heap) (a v : Nat) : Heap :=
  wset h (a / 4)
    (wread h (a / 4) -
      wread h (a / 4) / 2^(8 * (a % 4)) % 256 * 2^(8 * (a % 4)) +
      v % 256 * 2^(8 * (a % 4)))

/-- `memset(p, 0, n)`: zero `n` bytes starting at byte address `a`,
ascending. -/
def zeroRange : Heap → Nat → Nat → Heap
  | h, _, 0 => h
  | h, a, n + 1 => zeroRange (setByte h a 0) (a + 1) n

/-- `calloc` from `test.c`: `bytes = nmemb * size` in `size_t` arithmetic
(hence the `% 2^64`), then `malloc(bytes)`, then `memset(newptr, 0,
bytes)` — with no null check.  When `malloc` returns `NULL` and
`bytes > 0`, `memset` dereferences the null pointer: undefined behavior,
modelled as the outer `none`. -/
def calloc (h : Heap) (ok : Bool) (nmemb size : Nat) :
    Option (Option Nat × Heap × Bool) :=
  let bytes := nmemb * size % 2^64
  match malloc h ok bytes with
  | (some q, h', f) => some (some q, zeroRange h' (4 * q) bytes, f)
  | (none, h', f) => if bytes = 0 then some (none, h', f) else none

theorem wread_wset_self (h : Heap) (i v : Nat) :
    wread (wset h i v) i = v % 2^32 := by
  simp only [wread, wset]
  simp only [if_true]
  omega

theorem wread_wset_other (h : Heap) (i j v : Nat) (hne : j ≠ i) :
    wread (wset h i v) j = wread h j := by
  simp [wread, wset, hne]

theorem byteAt_setByte_same (h : Heap) (a : Nat) :
    byteAt (setByte h a 0) a = 0 := by
  simp only [byteAt, setByte, wread_wset_self]
  have hw : wread h (a / 4) < 2^32 := Nat.mod_lt _ (by norm_num)
  have hr : a % 4 < 4 := Nat.mod_lt _ (by norm_num)
  interval_cases hr' : a % 4 <;> norm_num <;> omega

theorem byteAt_setByte_other (h : Heap) (a b v : Nat) (hne : b ≠ a) :
    byteAt (setByte h a v) b = byteAt h b := by
  by_cases hw : b / 4 = a / 4
  · have hr : b % 4 ≠ a % 4 := by omega
    simp only [byteAt, setByte, hw, wread_wset_self]
    have hwlt : wread h (a / 4) < 2^32 := Nat.mod_lt _ (by norm_num)
    have hra : a % 4 < 4 := Nat.mod_lt _ (by norm_num)
    have hrb : b % 4 < 4 := Nat.mod_lt _ (by norm_num)
    have hv : v % 256 < 256 := Nat.mod_lt _ (by norm_num)
    interval_cases hra' : a % 4 <;> interval_cases hrb' : b % 4 <;>
      norm_num <;> omega
  · simp only [byteAt, setByte]
    rw [wread_wset_other _ _ _ _ hw]

theorem byteAt_zeroRange_out :
    ∀ (n : Nat) (h : Heap) (a b : Nat), b < a ∨ a + n ≤ b →
      byteAt (zeroRange h a n) b = byteAt h b := by
  intro n
  induction n with
  | zero => intro h a b _; rfl
  | succ n ih =>
    intro h a b hout
    have hne : b ≠ a := by omega
    simp only [zeroRange]
    rw [ih (setByte h a 0) (a + 1) b (by omega)]
    exact byteAt_setByte_other h a b 0 hne

theorem byteAt_zeroRange_zero :
    ∀ (n : Nat) (h : Heap) (a j : Nat), j < n →
      byteAt (zeroRange h a n) (a + j) = 0 := by
  intro n
  induction n with
  | zero => intro h a j hj; omega
  | succ n ih =>
    intro h a j hj
    cases j with
    | zero =>
      simp only [zeroRange, Nat.add_zero]
      rw [byteAt_zeroRange_out n (setByte h a 0) (a + 1) a (by omega)]
      exact byteAt_setByte_same h a
    | succ j' =>
      have : a + (j' + 1) = (a + 1) + j' := by omega
      rw [this]
      simp only [zeroRange]
      exact ih (setByte h a 0) (a + 1) j' (by omega)

/-- Claim C8, settled against the code: on the success path `calloc`
behaves as `allocate(count*size)` followed by zeroing all
`count*size mod 2^64` payload bytes; but on the failure path (here: the
initial heap with a failing sbrk and a 400-byte request) `calloc` does
not return nil — it passes the null pointer to `memset` (undefined
behavior, the model's `none`). -/
theorem calloc_spec :
    (∀ (h : Heap) (ok : Bool) (nmemb size q : Nat) (h' : Heap) (f : Bool),
      malloc h ok (nmemb * size % 2^64) = (some q, h', f) →
      calloc h ok nmemb size =
        some (some q, zeroRange h' (4 * q) (nmemb * size % 2^64), f) ∧
      ∀ j < nmemb * size % 2^64,
        byteAt (zeroRange h' (4 * q) (nmemb * size % 2^64)) (4 * q + j) =
          0) ∧
    calloc initHeap false 1 400 = none := by
  constructor
  · intro h ok nmemb size q h' f hm
    constructor
    · simp only [calloc, hm]
    · intro j hj
      exact byteAt_zeroRange_zero _ h' (4 * q) j hj
  · rfl

/-- Witness for C8's success conjunct: a 24-byte `calloc` on the
initialised heap returns payload word 20 with all 24 payload bytes
zero. -/
theorem calloc_spec_witness :
    (calloc initHeap true 1 24 =
      some (some 20,
        zeroRange (malloc initHeap true (1 * 24 % 2^64)).2.1 (4 * 20)
          (1 * 24 % 2^64),
        (malloc initHeap true (1 * 24 % 2^64)).2.2) ∧
      ∀ j < 1 * 24 % 2^64,
        byteAt (zeroRange (malloc initHeap true (1 * 24 % 2^64)).2.1
          (4 * 20) (1 * 24 % 2^64)) (4 * 20 + j) = 0) :=
  calloc_spec.1 initHeap true 1 24 20
    (malloc initHeap true (1 * 24 % 2^64)).2.1
    (malloc initHeap true (1 * 24 % 2^64)).2.2 rfl

/-!
The proxy's object cache, translated from `cache.c`, `vector.c`
(`src/unnamed/part_002`) and `web_data.c`.  A `web_data` record carries the
key `(website, file, port)`, the copied object bytes with their size (the C
`char *data` / `int data_size` pair), and the access timestamp.  `clock()`
is modelled by an explicit tick argument `now`.  C `int` fields are `Int`;
the assertion failures of `vector.c` (`assert (V->size > 0)`) surface as
`Option.none`.
-/

/-- `#define MAX_CACHE_SIZE 1049000` from `cache.h`. -/
def MAX_CACHE_SIZE : Int := 1049000

/-- One cached object, `struct web_data_hdr`. -/
structure WebData where
  website : String
  file : String
  port : Int
  data : List Nat
  data_size : Int
  acc_time : Nat
deriving DecidableEq

/-- Default `WebData`, used only as the out-of-range default of `List.getD`
(all accesses are proved in range). -/
def dWD : WebData := ⟨"", "", 0, [], 0, 0⟩

/-- `web_data_equals`: byte-wise string comparison of website and file plus
integer comparison of the port. -/
def web_data_equals (w : WebData) (website file : String) (port : Int) :
    Bool :=
  w.website = website && w.file = file && w.port = port

/-- `web_data_update_acc_time`: stamp the entry with the current tick. -/
def web_data_update_acc_time (w : WebData) (now : Nat) : WebData :=
  { w with acc_time := now }

/-- `web_data_new`: copy the key strings and the `dataSize` object bytes
and stamp the entry with the current tick. -/
def web_data_new (website file : String) (port : Int) (data : List Nat)
    (dataSize : Int) (now : Nat) : WebData :=
  ⟨website, file, port, data, dataSize, now⟩

/-- `vector_get`: linear scan; on the first match, update the entry's
timestamp in place and return it.  The result is the returned entry (or
`none`) together with the vector contents after the call. -/
def vector_get : List WebData → String → String → Int → Nat →
    Option WebData × List WebData
  | [], _, _, _, _ => (none, [])
  | w :: rest, ws, f, p, now =>
    if web_data_equals w ws f p then
      (some (web_data_update_acc_time w now),
        web_data_update_acc_time w now :: rest)
    else
      let r := vector_get rest ws f p now
      (r.1, w :: r.2)

/-- The scan position of `vector_find_LRU`: walk the remaining entries
carrying the current index and the best (index, time) so far; a strictly
smaller time is required to displace the best, so ties keep the earlier
index. -/
def find_LRU_go : List WebData → Nat → Nat → Nat → Nat
  | [], _, besti, _ => besti
  | w :: ws, i, besti, bestt =>
    if w.acc_time < bestt then find_LRU_go ws (i + 1) i w.acc_time
    else find_LRU_go ws (i + 1) besti bestt

/-- `vector_find_LRU`: index of the least-recently-used entry (the C code
asserts the vector is non-empty; the `[]` case is unreachable from the
guarded callers). -/
def vector_find_LRU (items : List WebData) : Nat :=
  match items with
  | [] => 0
  | w :: rest => find_LRU_go rest 1 0 w.acc_time

/-- `vector_pop`: remove the element at `index`, shifting the rest down. -/
def vector_pop (items : List WebData) (index : Nat) : List WebData :=
  items.eraseIdx index

/-- `vector_evict_LRU`: evict the least-recently-used element and return
its data size; `none` models the `assert (V->size > 0)` failure. -/
def vector_evict_LRU (items : List WebData) :
    Option (Int × List WebData) :=
  match items with
  | [] => none
  | _ :: _ =>
    let index := vector_find_LRU items
    some ((items.getD index dWD).data_size, vector_pop items index)

/-- `vector_push_back`: append (capacity doubling is invisible here). -/
def vector_push_back (items : List WebData) (w : WebData) : List WebData :=
  items ++ [w]

/-- `struct cache_header`: the vector of entries plus the tracked total
size (a C `int`). -/
structure Cache where
  items : List WebData
  csize : Int
deriving DecidableEq

/-- `cache_new`: empty vector, size 0. -/
def cache_new : Cache := ⟨[], 0⟩

/-- `cache_get`: look the key up; on a hit return the borrowed data and
its size, on a miss return `none` (`*data_size = 0` in C). -/
def cache_get (C : Cache) (website file : String) (port : Int) (now : Nat) :
    Option (List Nat × Int) × Cache :=
  let r := vector_get C.items website file port now
  match r.1 with
  | some w => (some (w.data, w.data_size), ⟨r.2, C.csize⟩)
  | none => (none, ⟨r.2, C.csize⟩)

/-- The `while (C->size + dataSize > MAX_CACHE_SIZE)` eviction loop of
`cache_insert`.  `fuel` is only a structural-termination counter; called
with `fuel = items.length + 1` it never runs out, because each eviction
removes exactly one entry and the loop aborts (`none`, the C assertion)
once the vector is empty while the condition still holds. -/
def evictLoop : Nat → List WebData → Int → Int →
    Option (List WebData × Int)
  | 0, _, _, _ => none
  | fuel + 1, items, csize, ds =>
    if csize + ds > MAX_CACHE_SIZE then
      match vector_evict_LRU items with
      | none => none
      | some (sz, items') => evictLoop fuel items' (csize - sz) ds
    else some (items, csize)

/-- `cache_insert`: build the new entry, evict while over budget, then
append and add the new size. -/
def cache_insert (C : Cache) (website file : String) (port : Int)
    (data : List Nat) (dataSize : Int) (now : Nat) : Option Cache :=
  let w := web_data_new website file port data dataSize now
  match evictLoop (C.items.length + 1) C.items C.csize dataSize with
  | none => none
  | some (items', csize') =>
    some ⟨vector_push_back items' w, csize' + dataSize⟩

/-- Sum of the sizes of the cached objects. -/
def sumSizes (C : Cache) : Int := (C.items.map (fun w => w.data_size)).sum

/-- Number of cached entries whose fingerprint equals the given key. -/
def countKey (C : Cache) (website file : String) (port : Int) : Nat :=
  C.items.countP (fun w => web_data_equals w website file port)

/-!
Claim C7: lookups stamp the hit entry before returning it, misses change
nothing.
-/

theorem vector_get_miss (ws f : String) (p : Int) (now : Nat) :
    ∀ items : List WebData,
      (∀ w ∈ items, web_data_equals w ws f p = false) →
      vector_get items ws f p now = (none, items) := by
  intro items
  induction items with
  | nil => intro _; rfl
  | cons w rest ih =>
    intro hall
    have hw := hall w (by simp)
    have hrest := ih (fun x hx => hall x (by simp [hx]))
    simp [vector_get, hw, hrest]

theorem vector_get_hit (ws f : String) (p : Int) (now : Nat) :
    ∀ items : List WebData,
      (∃ w ∈ items, web_data_equals w ws f p = true) →
      ∃ i, i < items.length ∧
        web_data_equals (items.getD i dWD) ws f p = true ∧
        (∀ j < i, web_data_equals (items.getD j dWD) ws f p = false) ∧
        vector_get items ws f p now =
          (some (web_data_update_acc_time (items.getD i dWD) now),
            items.set i (web_data_update_acc_time (items.getD i dWD) now)) := by
  intro items
  induction items with
  | nil => intro h; simp at h
  | cons w rest ih =>
    intro hex
    by_cases hw : web_data_equals w ws f p = true
    · refine ⟨0, by simp, by simpa using hw, by simp, ?_⟩
      simp [vector_get, hw]
    · have hex' : ∃ x ∈ rest, web_data_equals x ws f p = true := by
        rcases hex with ⟨x, hx, hxe⟩
        rcases List.mem_cons.mp hx with h1 | h1
        · subst h1; exact absurd hxe hw
        · exact ⟨x, h1, hxe⟩
      rcases ih hex' with ⟨i, hi, hieq, hjlt, heq⟩
      refine ⟨i + 1, by simpa using Nat.succ_lt_succ hi, by simpa using hieq,
        ?_, ?_⟩
      · intro j hj
        cases j with
        | zero => simpa using (Bool.not_eq_true _).mp hw
        | succ j' => simpa using hjlt j' (Nat.lt_of_succ_lt_succ hj)
      · have hwf : web_data_equals w ws f p = false :=
          (Bool.not_eq_true _).mp hw
        simp [vector_get, hwf, heq, List.getD_cons_succ, List.set_cons_succ]

/-- Claim C7: a successful `cache_get` (byte-wise equal host and path,
equal port) stamps the first matching entry with the fresh tick `now`
before returning its borrowed data and size; a miss returns `none` and
leaves every entry, in particular every timestamp, unchanged. -/
theorem cache_get_spec (C : Cache) (ws f : String) (p : Int) (now : Nat) :
    ((∃ w ∈ C.items, web_data_equals w ws f p = true) →
      ∃ i, i < C.items.length ∧
        web_data_equals (C.items.getD i dWD) ws f p = true ∧
        (∀ j < i, web_data_equals (C.items.getD j dWD) ws f p = false) ∧
        cache_get C ws f p now =
          (some ((C.items.getD i dWD).data, (C.items.getD i dWD).data_size),
            ⟨C.items.set i
              (web_data_update_acc_time (C.items.getD i dWD) now),
              C.csize⟩)) ∧
    ((∀ w ∈ C.items, web_data_equals w ws f p = false) →
      cache_get C ws f p now = (none, C)) := by
  constructor
  · intro hex
    rcases vector_get_hit ws f p now C.items hex with ⟨i, hi, hieq, hjlt, heq⟩
    exact ⟨i, hi, hieq, hjlt, by
      simp [cache_get, heq, web_data_update_acc_time]⟩
  · intro hall
    have := vector_get_miss ws f p now C.items hall
    simp [cache_get, this]

/-- Witness caches for C7. -/
def hitCache : Cache :=
  ⟨[⟨"a", "i", 80, [7], 1, 0⟩, ⟨"b", "j", 80, [8], 1, 0⟩], 2⟩

/-- Witness for C7: a hit on the second entry of `hitCache` and a miss on
the same cache, with both hypotheses discharged concretely. -/
theorem cache_get_spec_witness :
    (∃ i, i < hitCache.items.length ∧
      web_data_equals (hitCache.items.getD i dWD) "b" "j" 80 = true ∧
      (∀ j < i,
        web_data_equals (hitCache.items.getD j dWD) "b" "j" 80 = false) ∧
      cache_get hitCache "b" "j" 80 5 =
        (some ((hitCache.items.getD i dWD).data,
          (hitCache.items.getD i dWD).data_size),
          ⟨hitCache.items.set i
            (web_data_update_acc_time (hitCache.items.getD i dWD) 5),
            hitCache.csize⟩)) ∧
    cache_get hitCache "z" "j" 80 5 = (none, hitCache) :=
  ⟨(cache_get_spec hitCache "b" "j" 80 5).1 (by decide),
    (cache_get_spec hitCache "z" "j" 80 5).2 (by decide)⟩

/-!
Claim C4: the eviction policy (minimal timestamp, earliest index on ties,
repeat until the budget fits).
-/

theorem find_LRU_go_spec (full : List WebData) :
    ∀ (k i besti : Nat),
      full.length = i + k → besti < i →
      (∀ j < i,
        (full.getD besti dWD).acc_time ≤ (full.getD j dWD).acc_time) →
      (∀ j < besti,
        (full.getD besti dWD).acc_time < (full.getD j dWD).acc_time) →
      find_LRU_go (full.drop i) i besti (full.getD besti dWD).acc_time <
          full.length ∧
        (∀ j < full.length,
          (full.getD (find_LRU_go (full.drop i) i besti
            (full.getD besti dWD).acc_time) dWD).acc_time ≤
            (full.getD j dWD).acc_time) ∧
        (∀ j < find_LRU_go (full.drop i) i besti
            (full.getD besti dWD).acc_time,
          (full.getD (find_LRU_go (full.drop i) i besti
            (full.getD besti dWD).acc_time) dWD).acc_time <
            (full.getD j dWD).acc_time) := by
  intro k
  induction k with
  | zero =>
    intro i besti hlen hbi h2 h3
    have hdrop : full.drop i = [] := by
      rw [List.drop_eq_nil_iff]
      omega
    rw [hdrop]
    simp only [find_LRU_go]
    exact ⟨by omega, fun j hj => h2 j (by omega), fun j hj => h3 j hj⟩
  | succ k ih =>
    intro i besti hlen hbi h2 h3
    have hi : i < full.length := by omega
    have hdrop := List.drop_eq_getElem_cons hi
    have hgi : full.getD i dWD = full[i] := List.getD_eq_getElem full dWD hi
    rw [hdrop]
    simp only [find_LRU_go]
    by_cases hcmp : full[i].acc_time < (full.getD besti dWD).acc_time
    · rw [if_pos hcmp]
      have ih' := ih (i + 1) i (by omega) (by omega)
        (by
          intro j hj
          rw [hgi]
          rcases Nat.lt_succ_iff_lt_or_eq.mp hj with hj' | hj'
          · exact le_of_lt (lt_of_lt_of_le hcmp (h2 j hj'))
          · subst hj'
            rw [hgi])
        (by
          intro j hj
          rw [hgi]
          exact lt_of_lt_of_le hcmp (h2 j hj))
      rw [hgi] at ih'
      exact ih'
    · rw [if_neg hcmp]
      have ih' := ih (i + 1) besti (by omega) (by omega)
        (by
          intro j hj
          rcases Nat.lt_succ_iff_lt_or_eq.mp hj with hj' | hj'
          · exact h2 j hj'
          · subst hj'
            rw [hgi]
            omega)
        (fun j hj => h3 j hj)
      exact ih'

/-- `vector_find_LRU` returns an in-range index whose timestamp is minimal,
and strictly below every earlier index's timestamp (ties keep the earliest
index scanned). -/
theorem find_LRU_spec (items : List WebData) (hne : items ≠ []) :
    vector_find_LRU items < items.length ∧
      (∀ j < items.length,
        (items.getD (vector_find_LRU items) dWD).acc_time ≤
          (items.getD j dWD).acc_time) ∧
      (∀ j < vector_find_LRU items,
        (items.getD (vector_find_LRU items) dWD).acc_time <
          (items.getD j dWD).acc_time) := by
  cases items with
  | nil => exact absurd rfl hne
  | cons w rest =>
    have h := find_LRU_go_spec (w :: rest) rest.length 1 0
      (by simp [Nat.add_comm]) (by omega)
      (by
        intro j hj
        have hj0 : j = 0 := by omega
        subst hj0
        exact le_refl _)
      (by intro j hj; omega)
    simpa [vector_find_LRU, List.getD_cons_zero] using h

theorem length_eraseIdx_lt :
    ∀ (items : List WebData) (i : Nat), i < items.length →
      (items.eraseIdx i).length + 1 = items.length := by
  intro items
  induction items with
  | nil => intro i hi; simp at hi
  | cons w rest ih =>
    intro i hi
    cases i with
    | zero => simp [List.eraseIdx]
    | succ i' =>
      simp only [List.eraseIdx, List.length_cons]
      rw [ih i' (by simpa using Nat.lt_of_succ_lt_succ hi)]

theorem evictLoop_budget :
    ∀ (fuel : Nat) (items : List WebData) (csize ds : Int)
      (r : List WebData × Int),
      evictLoop fuel items csize ds = some r →
      r.2 + ds ≤ MAX_CACHE_SIZE := by
  intro fuel
  induction fuel with
  | zero => intro items csize ds r h; simp [evictLoop] at h
  | succ fuel ih =>
    intro items csize ds r h
    by_cases hc : csize + ds > MAX_CACHE_SIZE
    · simp only [evictLoop, hc, if_true] at h
      cases hev : vector_evict_LRU items with
      | none => rw [hev] at h; simp at h
      | some p =>
        rw [hev] at h
        exact ih p.2 (csize - p.1) ds r h
    · simp only [evictLoop, hc, if_false] at h
      cases h
      omega

/-- Claim C4: whenever `cache_insert` must make room, `vector_evict_LRU`
removes an entry whose timestamp is minimal among the current entries and,
among equal timestamps, the one at the smallest index; and eviction
repeats until the tracked total plus the new object's size fits the
`MAX_CACHE_SIZE` budget, so any successful insert leaves the tracked total
within the budget. -/
theorem lru_eviction_policy :
    (∀ (items : List WebData) (sz : Int) (items' : List WebData),
      vector_evict_LRU items = some (sz, items') →
      ∃ i, i < items.length ∧
        sz = (items.getD i dWD).data_size ∧
        items' = items.eraseIdx i ∧
        (∀ j < items.length,
          (items.getD i dWD).acc_time ≤ (items.getD j dWD).acc_time) ∧
        (∀ j < i,
          (items.getD i dWD).acc_time < (items.getD j dWD).acc_time)) ∧
    (∀ (C : Cache) (ws f : String) (p : Int) (data : List Nat)
      (ds : Int) (now : Nat) (C' : Cache),
      cache_insert C ws f p data ds now = some C' →
      C'.csize ≤ MAX_CACHE_SIZE) := by
  constructor
  · intro items sz items' hev
    cases items with
    | nil => simp [vector_evict_LRU] at hev
    | cons w rest =>
      have hspec := find_LRU_spec (w :: rest) (by simp)
      simp only [vector_evict_LRU, vector_pop, Option.some.injEq,
        Prod.mk.injEq] at hev
      exact ⟨vector_find_LRU (w :: rest), hspec.1, hev.1.symm, hev.2.symm,
        hspec.2.1, hspec.2.2⟩
  · intro C ws f p data ds now C' hins
    simp only [cache_insert] at hins
    cases hev : evictLoop (C.items.length + 1) C.items C.csize ds with
    | none => rw [hev] at hins; simp at hins
    | some r =>
      rw [hev] at hins
      have := evictLoop_budget _ _ _ _ _ hev
      cases hins
      simpa using this

/-- Witness entries for C4: timestamps 5, 3, 3, so the LRU scan must pick
index 1 (minimal time 3, earliest of the tie). -/
def items3 : List WebData :=
  [⟨"a", "x", 1, [0], 1, 5⟩, ⟨"b", "y", 2, [0], 2, 3⟩,
    ⟨"c", "z", 3, [0], 3, 3⟩]

/-- Witness for C4: eviction on `items3` and a concrete successful insert,
with all hypotheses discharged concretely. -/
theorem lru_eviction_policy_witness :
    (∃ i, i < items3.length ∧
      (2 : Int) = (items3.getD i dWD).data_size ∧
      items3.eraseIdx 1 = items3.eraseIdx i ∧
      (∀ j < items3.length,
        (items3.getD i dWD).acc_time ≤ (items3.getD j dWD).acc_time) ∧
      (∀ j < i,
        (items3.getD i dWD).acc_time < (items3.getD j dWD).acc_time)) ∧
    (⟨[web_data_new "a" "b" 1 [1] 1 7], 1⟩ : Cache).csize ≤
      MAX_CACHE_SIZE :=
  ⟨lru_eviction_policy.1 items3 2 (items3.eraseIdx 1) (by decide),
    lru_eviction_policy.2 cache_new "a" "b" 1 [1] 1 7
      ⟨[web_data_new "a" "b" 1 [1] 1 7], 1⟩ (by decide)⟩

/-!
Claim C3: the byte-budget invariant over every sequence of inserts and
lookups starting from the empty cache.
-/

/-- One cache operation as the proxy performs it: an insert (under the
writer lock) or a lookup. -/
inductive COp where
  | ins (website file : String) (port : Int) (data : List Nat)
      (dataSize : Int) (now : Nat)
  | look (website file : String) (port : Int) (now : Nat)

/-- Apply one operation to the cache. -/
def applyOp (C : Cache) : COp → Option Cache
  | COp.ins ws f p data ds now => cache_insert C ws f p data ds now
  | COp.look ws f p now => some (cache_get C ws f p now).2

/-- Run a list of operations left to right. -/
def runOps : Cache → List COp → Option Cache
  | C, [] => some C
  | C, op :: ops =>
    match applyOp C op with
    | none => none
    | some C' => runOps C' ops

/-- The claim's precondition on inserts: the object's size is non-negative
(it is a byte count) and at most `MAX_CACHE_SIZE`. -/
def okOp : COp → Prop
  | COp.ins _ _ _ _ ds _ => 0 ≤ ds ∧ ds ≤ MAX_CACHE_SIZE
  | COp.look _ _ _ _ => True

instance (op : COp) : Decidable (okOp op) := by
  cases op <;> simp only [okOp] <;> infer_instance

/-- The cache's aggregate invariant: the tracked size equals the sum of the
entry sizes, it is within the budget, and every entry size is
non-negative. -/
def CacheInv (C : Cache) : Prop :=
  C.csize = sumSizes C ∧ C.csize ≤ MAX_CACHE_SIZE ∧
    ∀ w ∈ C.items, 0 ≤ w.data_size

theorem vector_get_map_size (ws f : String) (p : Int) (now : Nat) :
    ∀ items : List WebData,
      ((vector_get items ws f p now).2).map (fun w => w.data_size) =
        items.map (fun w => w.data_size) := by
  intro items
  induction items with
  | nil => rfl
  | cons w rest ih =>
    by_cases hw : web_data_equals w ws f p
    · simp [vector_get, hw, web_data_update_acc_time]
    · have hw' : web_data_equals w ws f p = false := (Bool.not_eq_true _).mp hw
      simp [vector_get, hw', ih]

theorem sum_map_eraseIdx :
    ∀ (items : List WebData) (i : Nat), i < items.length →
      ((items.eraseIdx i).map (fun w => w.data_size)).sum =
        (items.map (fun w => w.data_size)).sum -
          (items.getD i dWD).data_size := by
  intro items
  induction items with
  | nil => intro i hi; simp at hi
  | cons w rest ih =>
    intro i hi
    cases i with
    | zero => simp [List.eraseIdx]
    | succ i' =>
      have hi' : i' < rest.length := by simpa using Nat.lt_of_succ_lt_succ hi
      simp only [List.eraseIdx, List.map_cons, List.sum_cons,
        List.getD_cons_succ]
      rw [ih i' hi']
      ring

theorem mem_eraseIdx_mem :
    ∀ (items : List WebData) (i : Nat) (w : WebData),
      w ∈ items.eraseIdx i → w ∈ items := by
  intro items
  induction items with
  | nil => intro i w h; simp [List.eraseIdx] at h
  | cons a rest ih =>
    intro i w h
    cases i with
    | zero =>
      simp only [List.eraseIdx] at h
      exact List.mem_cons_of_mem _ h
    | succ i' =>
      simp only [List.eraseIdx] at h
      rcases List.mem_cons.mp h with h' | h'
      · exact h' ▸ List.mem_cons_self _ _
      · exact List.mem_cons_of_mem _ (ih i' w h')

theorem evictLoop_inv :
    ∀ (fuel : Nat) (items : List WebData) (csize ds : Int),
      csize = (items.map (fun w => w.data_size)).sum →
      (∀ w ∈ items, 0 ≤ w.data_size) →
      0 ≤ ds → ds ≤ MAX_CACHE_SIZE →
      items.length < fuel →
      ∃ items' csize',
        evictLoop fuel items csize ds = some (items', csize') ∧
          csize' = (items'.map (fun w => w.data_size)).sum ∧
          (∀ w ∈ items', 0 ≤ w.data_size) ∧
          csize' + ds ≤ MAX_CACHE_SIZE := by
  intro fuel
  induction fuel with
  | zero => intro items csize ds _ _ _ _ hlt; omega
  | succ fuel ih =>
    intro items csize ds hsum hnn hds hdsle hlt
    by_cases hc : csize + ds > MAX_CACHE_SIZE
    · have hne : items ≠ [] := by
        intro h
        rw [h] at hsum
        simp at hsum
        omega
      have hfl := find_LRU_spec items hne
      have hev : vector_evict_LRU items =
          some ((items.getD (vector_find_LRU items) dWD).data_size,
            items.eraseIdx (vector_find_LRU items)) := by
        cases items with
        | nil => exact absurd rfl hne
        | cons w rest => rfl
      have hlen := length_eraseIdx_lt items (vector_find_LRU items) hfl.1
      have hsum' : csize - (items.getD (vector_find_LRU items)
          dWD).data_size =
          ((items.eraseIdx (vector_find_LRU items)).map
            (fun w => w.data_size)).sum := by
        rw [sum_map_eraseIdx items (vector_find_LRU items) hfl.1]
        omega
      have hnn' : ∀ w ∈ items.eraseIdx (vector_find_LRU items),
          0 ≤ w.data_size :=
        fun w hw => hnn w (mem_eraseIdx_mem items _ w hw)
      rcases ih (items.eraseIdx (vector_find_LRU items))
          (csize - (items.getD (vector_find_LRU items) dWD).data_size)
          ds hsum' hnn' hds hdsle (by omega) with
        ⟨items', csize', heq, h1, h2, h3⟩
      refine ⟨items', csize', ?_, h1, h2, h3⟩
      simp only [evictLoop]
      rw [if_pos hc, hev]
      exact heq
    · refine ⟨items, csize, ?_, hsum, hnn, by omega⟩
      simp [evictLoop, hc]

theorem applyOp_inv (C : Cache) (op : COp) (hI : CacheInv C)
    (hok : okOp op) :
    ∃ C', applyOp C op = some C' ∧ CacheInv C' := by
  cases op with
  | look ws f p now =>
    refine ⟨(cache_get C ws f p now).2, rfl, ?_⟩
    have h2 : (cache_get C ws f p now).2 =
        ⟨(vector_get C.items ws f p now).2, C.csize⟩ := by
      cases hv : (vector_get C.items ws f p now).1 <;>
        simp [cache_get, hv]
    rw [h2]
    obtain ⟨hs, hle, hnn⟩ := hI
    refine ⟨?_, hle, ?_⟩
    · simpa [sumSizes, vector_get_map_size] using hs
    · intro w hw
      have : w.data_size ∈ ((vector_get C.items ws f p now).2).map
          (fun w => w.data_size) := List.mem_map_of_mem _ hw
      rw [vector_get_map_size] at this
      rcases List.mem_map.mp this with ⟨x, hx, hxe⟩
      rw [← hxe]
      exact hnn x hx
  | ins ws f p data ds now =>
    obtain ⟨hs, hle, hnn⟩ := hI
    obtain ⟨hds, hdsle⟩ := hok
    rcases evictLoop_inv (C.items.length + 1) C.items C.csize ds
        (by simpa [sumSizes] using hs) hnn hds hdsle (by omega) with
      ⟨items', csize', heq, h1, h2, h3⟩
    refine ⟨⟨vector_push_back items'
      (web_data_new ws f p data ds now), csize' + ds⟩, ?_, ?_, ?_, ?_⟩
    · simp only [applyOp, cache_insert, heq]
    · simp only [sumSizes, vector_push_back, List.map_append, List.sum_append,
        List.map_cons, List.map_nil, List.sum_cons, List.sum_nil]
      simp [web_data_new, h1]
    · simpa using h3
    · intro w hw
      rcases List.mem_append.mp hw with hw' | hw'
      · exact h2 w hw'
      · simp at hw'
        subst hw'
        exact hds

theorem runOps_inv :
    ∀ (ops : List COp) (C : Cache), CacheInv C →
      (∀ op ∈ ops, okOp op) →
      ∃ C', runOps C ops = some C' ∧ CacheInv C' := by
  intro ops
  induction ops with
  | nil => intro C hI _; exact ⟨C, rfl, hI⟩
  | cons op rest ih =>
    intro C hI hok
    rcases applyOp_inv C op hI (hok op (by simp)) with ⟨C1, h1, hI1⟩
    rcases ih C1 hI1 (fun o ho => hok o (by simp [ho])) with ⟨C', h2, hI2⟩
    exact ⟨C', by simp [runOps, h1, h2], hI2⟩

/-- Claim C3: starting from the empty cache, after every prefix of a
sequence of lookups and inserts of objects with sizes between 0 and
`MAX_CACHE_SIZE`, every operation completes (no eviction ever hits the
empty-vector assertion) and the sum of the sizes of the cached objects is
at most `MAX_CACHE_SIZE`. -/
theorem cache_budget (ops : List COp) (hok : ∀ op ∈ ops, okOp op)
    (pre suf : List COp) (hsplit : ops = pre ++ suf) :
    ∃ C', runOps cache_new pre = some C' ∧ C'.csize = sumSizes C' ∧
      sumSizes C' ≤ MAX_CACHE_SIZE := by
  have hpre : ∀ op ∈ pre, okOp op := by
    intro op hop
    exact hok op (by rw [hsplit]; exact List.mem_append_left _ hop)
  have hinit : CacheInv cache_new := by
    refine ⟨by simp [cache_new, sumSizes],
      by norm_num [cache_new, MAX_CACHE_SIZE], ?_⟩
    intro w hw
    simp [cache_new] at hw
  rcases runOps_inv pre cache_new hinit hpre with ⟨C', h1, h2, h3, _⟩
  exact ⟨C', h1, h2, h2 ▸ h3⟩

/-- Witness trace for C3: one insert of a 2-byte object, then a lookup. -/
def ops2 : List COp :=
  [COp.ins "a" "/" 80 [1, 2] 2 1, COp.look "a" "/" 80 2]

/-- Witness for C3: the theorem applied to the concrete trace `ops2`. -/
theorem cache_budget_witness :
    ∃ C', runOps cache_new ops2 = some C' ∧ C'.csize = sumSizes C' ∧
      sumSizes C' ≤ MAX_CACHE_SIZE :=
  cache_budget ops2 (by decide) ops2 [] rfl

/-!
Claim C10: inserting under an existing fingerprint appends rather than
replaces — but only as long as the insert's eviction loop does not evict
the earlier entry.
-/

theorem vector_get_append_find (ws f : String) (p : Int) (now : Nat)
    (tail : List WebData) :
    ∀ (items : List WebData) (e : WebData),
      items.find? (fun w => web_data_equals w ws f p) = some e →
      (vector_get (items ++ tail) ws f p now).1 =
        some (web_data_update_acc_time e now) := by
  intro items
  induction items with
  | nil => intro e he; simp at he
  | cons w rest ih =>
    intro e he
    by_cases hw : web_data_equals w ws f p
    · simp only [List.find?_cons, hw, if_true] at he
      cases he
      simp [vector_get, hw]
    · have hw' : web_data_equals w ws f p = false := (Bool.not_eq_true _).mp hw
      simp only [List.find?_cons, hw', Bool.false_eq_true, if_false] at he
      simp [vector_get, hw', ih e he]

/-- Claim C10 (amended): when the insert needs no eviction
(`total_size + new_size` within budget) and an entry with the same
fingerprint is already present, `cache_insert` appends a second entry with
that key, and a subsequent lookup still returns the bytes and size of the
earlier entry, because the linear scan returns the first match. -/
theorem dup_key_append (C : Cache) (ws f : String) (p : Int)
    (data : List Nat) (ds : Int) (now now' : Nat) (e : WebData)
    (hfit : C.csize + ds ≤ MAX_CACHE_SIZE)
    (hfind : C.items.find? (fun w => web_data_equals w ws f p) = some e) :
    cache_insert C ws f p data ds now =
        some ⟨C.items ++ [web_data_new ws f p data ds now], C.csize + ds⟩ ∧
      countKey ⟨C.items ++ [web_data_new ws f p data ds now],
          C.csize + ds⟩ ws f p = countKey C ws f p + 1 ∧
      (cache_get ⟨C.items ++ [web_data_new ws f p data ds now],
          C.csize + ds⟩ ws f p now').1 = some (e.data, e.data_size) := by
  have hloop : evictLoop (C.items.length + 1) C.items C.csize ds =
      some (C.items, C.csize) := by
    simp only [evictLoop]
    rw [if_neg (not_lt.mpr hfit)]
  refine ⟨?_, ?_, ?_⟩
  · simp only [cache_insert, hloop, vector_push_back]
  · simp only [countKey, List.countP_append]
    have : web_data_equals (web_data_new ws f p data ds now) ws f p = true := by
      simp [web_data_equals, web_data_new]
    simp [this]
  · have hv := vector_get_append_find ws f p now'
      [web_data_new ws f p data ds now] C.items e hfind
    simp only [cache_get, hv, web_data_update_acc_time]

/-- Witness cache for C10: a single 1-byte entry under key
`("h", "/", 80)`. -/
def dupCache : Cache := ⟨[⟨"h", "/", 80, [1], 1, 5⟩], 1⟩

/-- Witness for C10's amended theorem: inserting a second `("h", "/", 80)`
entry into `dupCache` (no eviction needed) leaves two entries under the
key and lookups still return the old bytes `[1]`. -/
theorem dup_key_append_witness :
    cache_insert dupCache "h" "/" 80 [2] 1 6 =
        some ⟨dupCache.items ++ [web_data_new "h" "/" 80 [2] 1 6],
          dupCache.csize + 1⟩ ∧
      countKey ⟨dupCache.items ++ [web_data_new "h" "/" 80 [2] 1 6],
          dupCache.csize + 1⟩ "h" "/" 80 = countKey dupCache "h" "/" 80 + 1 ∧
      (cache_get ⟨dupCache.items ++ [web_data_new "h" "/" 80 [2] 1 6],
          dupCache.csize + 1⟩ "h" "/" 80 7).1 = some ([1], 1) :=
  dup_key_append dupCache "h" "/" 80 [2] 1 6 7 ⟨"h", "/", 80, [1], 1, 5⟩
    (by decide) (by decide)

/-- Counterexample to claim C10 as stated: starting from the empty cache,
insert a 600000-byte object under key `("h", "/", 80)` and then insert a
second 600000-byte object under the same key.  The second insert must
evict, and the evicted entry is the earlier one with the same key, so the
cache afterwards holds one entry under the key — not two. -/
theorem dup_key_insert_counterexample :
    ((cache_insert cache_new "h" "/" 80 (List.replicate 600000 49)
        600000 1).bind
      (fun C => cache_insert C "h" "/" 80 (List.replicate 600000 50)
        600000 2)).map
      (fun C => countKey C "h" "/" 80) = some 1 := by
  decide

/-!
Claim C2: the header rewriting of `client_to_web` / `send_proxyheaders`
in `proxy.c`.  Header lines are lists of characters as delivered by
`rio_readlineb` (terminators included); the blank line `"\r\n"` has
length 2 and ends the client's header section.
-/

/-- ASCII lower-casing of one character, as `strcasecmp`/`tolower` do. -/
def toLowerC (c : Char) : Char :=
  if 'A' ≤ c ∧ c ≤ 'Z' then Char.ofNat (c.toNat + 32) else c

/-- Lower-case an entire string. -/
def lowerStr (s : List Char) : List Char := s.map toLowerC

/-- `strcasecmp(a, b) == 0`: equality up to ASCII case. -/
def casecmp_eq (a b : List Char) : Bool := decide (lowerStr a = lowerStr b)

/-- `strip_space` from `proxy.c`: truncate after the last non-space
character, i.e. remove trailing spaces. -/
def strip_space (s : List Char) : List Char :=
  (s.reverse.dropWhile (fun c => c = ' ')).reverse

/-- The field name of a header line: the characters before the first `':'`
(`strchr` + `strncpy`), with trailing spaces stripped; `none` when the
line has no `':'`. -/
def headerName (l : List Char) : Option (List Char) :=
  if ':' ∈ l then some (strip_space (l.takeWhile (fun c => c ≠ ':')))
  else none

/-- `change_headers` from `proxy.c`: the five header names the proxy
supplies itself. -/
def change_headers : List (List Char) :=
  [String.toList "User-Agent", String.toList "Accept",
    String.toList "Accept-Encoding", String.toList "Connection",
    String.toList "Proxy-Connection"]

/-- `in_list`: membership up to ASCII case. -/
def in_list (s : List Char) (slist : List (List Char)) : Bool :=
  slist.any (fun t => casecmp_eq s t)

/-- Whether a line's field name equals `nm` up to ASCII case. -/
def nameIs (nm : List Char) (l : List Char) : Bool :=
  match headerName l with
  | some hd => casecmp_eq hd nm
  | none => false

/-- The `!strcasecmp(header, "Host")` test of `client_to_web`. -/
def isHostLine (l : List Char) : Bool := nameIs (String.toList "Host") l

/-- The `in_list(header, change_headers, 5)` test: the line is suppressed
rather than forwarded. -/
def dropLine (l : List Char) : Bool :=
  match headerName l with
  | some hd => in_list hd change_headers
  | none => false

/-- `client_to_web`: stream the client's header lines to the origin until
the blank line (length 2), dropping the five rewritten headers and
remembering whether a `Host` header was seen.  Returns the forwarded lines
and the `hostSpecified` flag; `none` is the `-1` error path (a short line
before the blank line, e.g. EOF). -/
def client_to_web : List (List Char) → Option (List (List Char) × Bool)
  | [] => none
  | l :: rest =>
    if l.length = 2 then some ([], false)
    else if l.length < 2 then none
    else
      match client_to_web rest with
      | none => none
      | some (fwd, host) =>
        some (if dropLine l then fwd else l :: fwd, host || isHostLine l)

/-- `user_agent_hdr` from `proxy.c`. -/
def user_agent_hdr : List Char :=
  String.toList
    "User-Agent: Mozilla/5.0 (X11; Linux x86_64; rv:10.0.3) Gecko/20120305 Firefox/10.0.3\r\n"

/-- `accept_hdr` from `proxy.c`. -/
def accept_hdr : List Char :=
  String.toList
    "Accept: text/html,application/xhtml+xml,application/xml;q=0.9,*/*;q=0.8\r\n"

/-- `accept_encoding_hdr` from `proxy.c`. -/
def accept_encoding_hdr : List Char :=
  String.toList "Accept-Encoding: gzip, deflate\r\n"

/-- `connect_hdr` from `proxy.c`. -/
def connect_hdr : List Char := String.toList "Connection: close\r\n"

/-- `proxy_connect_hdr` from `proxy.c`. -/
def proxy_connect_hdr : List Char :=
  String.toList "Proxy-Connection: close\r\n"

/-- `send_proxyheaders`: the proxy's own header lines, with a `Host`
header synthesized from the server name only when the client supplied
none. -/
def send_proxyheaders (hostSpecified : Bool) (name : List Char) :
    List (List Char) :=
  (if hostSpecified then []
    else [String.toList "Host: " ++ name ++ String.toList "\r\n"]) ++
    [user_agent_hdr, accept_hdr, accept_encoding_hdr, connect_hdr,
      proxy_connect_hdr]

/-- The complete header section the origin receives for one forwarded
request: the surviving client lines followed by the proxy's own headers
(the request line and the final blank line are not headers). -/
def originHeaderLines (clientLines : List (List Char)) (name : List Char) :
    Option (List (List Char)) :=
  match client_to_web clientLines with
  | none => none
  | some (fwd, host) => some (fwd ++ send_proxyheaders host name)

/-- How many lines of the list carry the field name `nm`
(case-insensitively). -/
def countName (lines : List (List Char)) (nm : List Char) : Nat :=
  lines.countP (nameIs nm)

/-- The client lines scanned by `client_to_web` before the blank line. -/
def scannedLines (ls : List (List Char)) : List (List Char) :=
  ls.takeWhile (fun l => l.length ≠ 2)

theorem client_to_web_char :
    ∀ (ls : List (List Char)) (fwd : List (List Char)) (host : Bool),
      client_to_web ls = some (fwd, host) →
      fwd = (scannedLines ls).filter (fun l => !dropLine l) ∧
        host = (scannedLines ls).any isHostLine := by
  intro ls
  induction ls with
  | nil => intro fwd host h; simp [client_to_web] at h
  | cons l rest ih =>
    intro fwd host h
    by_cases h2 : l.length = 2
    · simp only [client_to_web, h2, if_true] at h
      cases h
      constructor
      · simp [scannedLines, h2]
      · simp [scannedLines, h2]
    · by_cases hlt : l.length < 2
      · simp only [client_to_web, h2, if_false, hlt, if_true] at h
        cases h
      · simp only [client_to_web, h2, if_false, hlt] at h
        cases hrec : CSys.client_to_web rest with
        | none => rw [hrec] at h; simp at h
        | some r =>
          rw [hrec] at h
          obtain ⟨fwd', host'⟩ := r
          rcases ih fwd' host' hrec with ⟨hf, hh⟩
          simp only [Option.some.injEq, Prod.mk.injEq] at h
          have hscan : scannedLines (l :: rest) = l :: scannedLines rest := by
            simp [scannedLines, h2]
          constructor
          · rw [← h.1, hscan, List.filter_cons, hf]
            by_cases hd : dropLine l
            · simp [hd]
            · simp [hd]
          · rw [← h.2, hscan, List.any_cons, hh, Bool.or_comm]

theorem countName_append (a b : List (List Char)) (nm : List Char) :
    countName (a ++ b) nm = countName a nm + countName b nm :=
  List.countP_append _ _ _

/-- A line whose field name case-matches one of the five rewritten names
is dropped. -/
theorem nameIs_change_dropped (l : List Char) (nm : List Char)
    (hnm : nm ∈ change_headers) (h : nameIs nm l = true) :
    dropLine l = true := by
  unfold nameIs at h
  cases hh : headerName l with
  | none => rw [hh] at h; simp at h
  | some hd =>
    rw [hh] at h
    simp only [dropLine, hh, in_list]
    rw [List.any_eq_true]
    exact ⟨nm, hnm, h⟩

/-- The forwarded client lines carry none of the five rewritten names. -/
theorem countName_fwd_change (ls : List (List Char)) (nm : List Char)
    (hnm : nm ∈ change_headers) :
    countName (ls.filter (fun l => !dropLine l)) nm = 0 := by
  unfold countName
  rw [List.countP_eq_zero]
  intro l hl
  rcases List.mem_filter.mp hl with ⟨_, hkeep⟩
  intro hcontra
  have := nameIs_change_dropped l nm hnm hcontra
  simp [this] at hkeep

/-- The synthesized `Host:` line's field name is `Host`, whatever the
server name is. -/
theorem headerName_host (rest : List Char) :
    headerName (String.toList "Host: " ++ rest) =
      some (String.toList "Host") := rfl

/-- Host lines are never dropped: `Host` does not case-match any of the
five rewritten names. -/
theorem host_not_dropped (l : List Char)
    (h : nameIs (String.toList "Host") l = true) : dropLine l = false := by
  unfold nameIs at h
  cases hh : headerName l with
  | none => rw [hh] at h; simp at h
  | some hd =>
    rw [hh] at h
    simp only [dropLine, hh, in_list]
    unfold casecmp_eq at h
    rw [decide_eq_true_eq] at h
    rw [List.any_eq_false]
    intro t ht
    fin_cases ht <;>
      · simp only [casecmp_eq, h]
        decide

/-- Forwarding preserves the number of client `Host` lines. -/
theorem countName_fwd_host (ls : List (List Char)) :
    countName (ls.filter (fun l => !dropLine l)) (String.toList "Host") =
      countName ls (String.toList "Host") := by
  unfold countName
  rw [List.countP_filter]
  apply List.countP_congr
  intro l _
  constructor
  · intro h
    exact (Bool.and_eq_true _ _).mp h |>.1
  · intro h
    rw [Bool.and_eq_true]
    exact ⟨h, by simp [host_not_dropped l h]⟩

/-- Claim C2 (amended): for every client header section that
`client_to_web` forwards successfully, the origin's header section
consists of exactly the non-rewritten client lines followed by the
proxy's own headers; it contains exactly one `User-Agent`, one `Accept`,
one `Accept-Encoding`, one `Connection` and one `Proxy-Connection` line
(the latter two being the literal `close` versions), and its number of
`Host` lines is the client's `Host`-line count when the client sent any
(all client `Host` lines are forwarded), else exactly one (the proxy's
own). -/
theorem header_rewrite (clientLines : List (List Char)) (name : List Char)
    (fwd : List (List Char)) (host : Bool)
    (hrun : client_to_web clientLines = some (fwd, host)) :
    fwd = (scannedLines clientLines).filter (fun l => !dropLine l) ∧
      host = (scannedLines clientLines).any isHostLine ∧
      countName (fwd ++ send_proxyheaders host name)
        (String.toList "User-Agent") = 1 ∧
      countName (fwd ++ send_proxyheaders host name)
        (String.toList "Accept") = 1 ∧
      countName (fwd ++ send_proxyheaders host name)
        (String.toList "Accept-Encoding") = 1 ∧
      countName (fwd ++ send_proxyheaders host name)
        (String.toList "Connection") = 1 ∧
      countName (fwd ++ send_proxyheaders host name)
        (String.toList "Proxy-Connection") = 1 ∧
      connect_hdr ∈ fwd ++ send_proxyheaders host name ∧
      proxy_connect_hdr ∈ fwd ++ send_proxyheaders host name ∧
      countName (fwd ++ send_proxyheaders host name)
        (String.toList "Host") =
        countName (scannedLines clientLines) (String.toList "Host") +
          (if host then 0 else 1) ∧
      (host = true ↔
        1 ≤ countName (scannedLines clientLines) (String.toList "Host")) := by
  rcases client_to_web_char clientLines fwd host hrun with ⟨hf, hh⟩
  have hHostName : nameIs (String.toList "Host")
      (String.toList "Host: " ++ name ++ String.toList "\r\n") = true := by
    unfold nameIs
    rw [List.append_assoc, headerName_host]
    decide
  have hcount5 : ∀ nm ∈ change_headers,
      countName (fwd ++ send_proxyheaders host name) nm = 1 := by
    intro nm hnm
    have hbase : countName [user_agent_hdr, accept_hdr, accept_encoding_hdr,
        connect_hdr, proxy_connect_hdr] nm = 1 := by
      fin_cases hnm <;> decide
    have hhost0 : countName (if host then []
        else [String.toList "Host: " ++ name ++ String.toList "\r\n"])
        nm = 0 := by
      cases host with
      | true => simp [countName]
      | false =>
        have hn : nameIs nm
            (String.toList "Host: " ++ name ++ String.toList "\r\n") =
            false := by
          unfold nameIs
          rw [List.append_assoc, headerName_host]
          fin_cases hnm <;> decide
        unfold countName
        simp only [Bool.false_eq_true, if_false]
        rw [List.countP_cons, List.countP_nil, hn]
        simp
    have hsp : countName (send_proxyheaders host name) nm = 1 := by
      unfold send_proxyheaders
      rw [countName_append, hhost0, hbase]
    rw [countName_append, hsp, hf, countName_fwd_change _ nm hnm]
  refine ⟨hf, hh, hcount5 _ (by simp [change_headers]),
    hcount5 _ (by simp [change_headers]),
    hcount5 _ (by simp [change_headers]),
    hcount5 _ (by simp [change_headers]),
    hcount5 _ (by simp [change_headers]), ?_, ?_, ?_, ?_⟩
  · exact List.mem_append_right _ (by
      unfold send_proxyheaders
      exact List.mem_append_right _ (by simp))
  · exact List.mem_append_right _ (by
      unfold send_proxyheaders
      exact List.mem_append_right _ (by simp))
  · have hbaseH : countName [user_agent_hdr, accept_hdr,
        accept_encoding_hdr, connect_hdr, proxy_connect_hdr]
        (String.toList "Host") = 0 := by decide
    have hhostH : countName (if host then []
        else [String.toList "Host: " ++ name ++ String.toList "\r\n"])
        (String.toList "Host") = (if host then 0 else 1) := by
      cases host with
      | true => simp [countName]
      | false =>
        unfold countName
        simp only [Bool.false_eq_true, if_false]
        rw [List.countP_cons, List.countP_nil, hHostName]
        simp
    rw [countName_append, hf, countName_fwd_host]
    have hsendH : countName (send_proxyheaders host name)
        (String.toList "Host") = (if host then 0 else 1) := by
      unfold send_proxyheaders
      rw [countName_append, hhostH, hbaseH]
      simp
    rw [hsendH]
  · rw [hh, List.any_eq_true]
    unfold countName isHostLine
    exact List.countP_pos_iff.symm

/-- Counterexample client header section for C2: two `Host` lines. -/
def exLines : List (List Char) :=
  [String.toList "Host: a\r\n", String.toList "Host: b\r\n",
    String.toList "\r\n"]

/-- Counterexample to claim C2 as stated: when the client sends two `Host`
header lines, both are forwarded (`Host` is not among the five rewritten
names) and the proxy adds none of its own, so the origin observes two
`Host` headers, not exactly one. -/
theorem header_rewrite_counterexample :
    (originHeaderLines exLines (String.toList "x")).map
      (fun s => countName s (String.toList "Host")) = some 2 := by
  decide

/-- Witness client header section for C2's amended theorem. -/
def wLines : List (List Char) :=
  [String.toList "Foo: bar\r\n", String.toList "\r\n"]

/-- Witness origin name for C2's amended theorem. -/
def wName : List Char := String.toList "origin.example"

/-- Witness forwarded lines for C2's amended theorem. -/
def wFwd : List (List Char) := [String.toList "Foo: bar\r\n"]

/-- Witness for C2: the amended theorem applied to a concrete client
header section with no `Host` line and one unrelated header. -/
theorem header_rewrite_witness :
    wFwd = (scannedLines wLines).filter (fun l => !dropLine l) ∧
      false = (scannedLines wLines).any isHostLine ∧
      countName (wFwd ++ send_proxyheaders false wName)
        (String.toList "User-Agent") = 1 ∧
      countName (wFwd ++ send_proxyheaders false wName)
        (String.toList "Accept") = 1 ∧
      countName (wFwd ++ send_proxyheaders false wName)
        (String.toList "Accept-Encoding") = 1 ∧
      countName (wFwd ++ send_proxyheaders false wName)
        (String.toList "Connection") = 1 ∧
      countName (wFwd ++ send_proxyheaders false wName)
        (String.toList "Proxy-Connection") = 1 ∧
      connect_hdr ∈ wFwd ++ send_proxyheaders false wName ∧
      proxy_connect_hdr ∈ wFwd ++ send_proxyheaders false wName ∧
      countName (wFwd ++ send_proxyheaders false wName)
        (String.toList "Host") =
        countName (scannedLines wLines) (String.toList "Host") +
          (if false then 0 else 1) ∧
      (false = true ↔
        1 ≤ countName (scannedLines wLines) (String.toList "Host")) :=
  header_rewrite wLines wName wFwd false (by decide)

/-!
Claim C9: the readers/writers gate of `proxy.c`.  Two threads are
modelled: a reader running `retrieve_cache` (proxy.c:482-499) followed by
`process`'s use of the borrowed pointer in `cache_to_client`
(proxy.c:193), and a writer running `web_to_client`'s
`P(&write_m); cache_insert(...); V(&write_m)` (proxy.c:428-433), where the
insert's eviction frees an old object's bytes.  The cache is abstracted to
one object id `obj`; `freed` collects the ids whose bytes
`vector_evict_LRU`/`web_data_free` has released; `bad` records that the
reader's `cache_to_client` ran on freed bytes.  Each program counter step
is one atomic statement of the source; semaphores are counters with
blocking `P`.
-/

end CSys
